import Mathlib

/-!
Verification development for the gomodels schema-evolution and
query-conditioning library.  Each component of the source is embedded
shallowly: Go maps become association lists (iteration order is the list
order, since the source applies no normalisation of its own), fallible
paths become `Option`/`Except`, and the database executor is modelled as
the list of statements it is asked to run.
-/

namespace Cond

/-- A leaf predicate: the `Q` type of conditioners.go, a map from field
name (with optional operator suffix) to value.  Values are abstracted to
`Int`; the compiler never inspects them. -/
abbrev QPred := List (String × Int)

/-- The conditioner values of conditioners.go: either a leaf `Q` or a
`condChain{root Q, next Conditioner, or bool, not bool}`.  The chain's
`root` field has type `Q` in the source, so it is a leaf here too. -/
inductive Conditioner where
  | q (pred : QPred)
  | chain (root : QPred) (next : Conditioner) (isOr : Bool) (isNot : Bool)
  deriving Repr, DecidableEq

/-- `Q.And` / `condChain.And`: on a leaf builds `condChain{root, next}`;
on a chain assigns `c.next = next` (value receiver) keeping `or`/`not`. -/
def Conditioner.and : Conditioner → Conditioner → Conditioner
  | .q p, next => .chain p next false false
  | .chain root _ o n, next => .chain root next o n

/-- `Q.AndNot` / `condChain.AndNot`: sets `next` and `not = true`; on a
chain the existing `or` flag is kept. -/
def Conditioner.andNot : Conditioner → Conditioner → Conditioner
  | .q p, next => .chain p next false true
  | .chain root _ o _, next => .chain root next o true

/-- `Q.Or` / `condChain.Or`: sets `next` and `or = true`; on a chain the
existing `not` flag is kept. -/
def Conditioner.orQ : Conditioner → Conditioner → Conditioner
  | .q p, next => .chain p next true false
  | .chain root _ _ n, next => .chain root next true n

/-- `Q.OrNot` / `condChain.OrNot`: sets `next`, `or = true`, `not = true`. -/
def Conditioner.orNot : Conditioner → Conditioner → Conditioner
  | .q p, next => .chain p next true true
  | .chain root _ _ _, next => .chain root next true true

/-- Rendering of one leaf predicate as a SQL fragment with `?`
placeholders, entries in iteration order joined by AND. -/
def leafSQL (p : QPred) : String :=
  String.intercalate " AND " (p.map (fun e => e.1 ++ " = ?"))

/-- Modelled from the spec: the predicate compiler itself is not among
the source files (only the chain constructors, its callers and its test
are), so the chain-to-SQL step follows section 4.1 of the spec: a chain
link combines the left side with the combinator `OR`/`AND`, prefixes the
right side with `NOT` when the negation flag is set, and parenthesizes
the right-hand group, as in the spec example
`A.OrNot(B.Or(C))` -> `A OR NOT (B OR C)`. -/
def compile : Conditioner → String
  | .q p => leafSQL p
  | .chain root next o n =>
      leafSQL root
        ++ (if o then " OR " else " AND ")
        ++ (if n then "NOT (" ++ compile next ++ ")" else compile next)

/-- The argument values of a conditioner in left-to-right textual order. -/
def argsOf : Conditioner → List Int
  | .q p => p.map Prod.snd
  | .chain root next _ _ => root.map Prod.snd ++ argsOf next

/-- Claim C1: refuting evaluation.  For the leaves A = Q{active: 1},
B = Q{email: 2}, C = Q{id: 10}, the chain built by `A.Or(B).AndNot(C)`
through the source's methods is the very same value as the one built by
`A.OrNot(C)`: `condChain.AndNot` assigns `c.next = next`, discarding the
pending link B, and keeps `or = true`.  It therefore compiles to
`A OR NOT (C)` with only two argument values — not to
`(A OR B) AND NOT (C)` with three — while the second spec example
`A.OrNot(B.Or(C))` does compile to `A OR NOT (B OR C)` as claimed. -/
theorem andNot_discards_pending_link :
    ((Conditioner.q [("active", 1)]).orQ (Conditioner.q [("email", 2)])).andNot
        (Conditioner.q [("id", 10)])
      = (Conditioner.q [("active", 1)]).orNot (Conditioner.q [("id", 10)])
    ∧ Cond.compile
        (((Conditioner.q [("active", 1)]).orQ (Conditioner.q [("email", 2)])).andNot
          (Conditioner.q [("id", 10)]))
      = "active = ? OR NOT (id = ?)"
    ∧ Cond.argsOf
        (((Conditioner.q [("active", 1)]).orQ (Conditioner.q [("email", 2)])).andNot
          (Conditioner.q [("id", 10)]))
      = [1, 10]
    ∧ Cond.compile
        ((Conditioner.q [("active", 1)]).orNot
          ((Conditioner.q [("email", 2)]).orQ (Conditioner.q [("id", 10)])))
      = "active = ? OR NOT (email = ? OR id = ?)" :=
  ⟨rfl, rfl, rfl, rfl⟩

end Cond

namespace Ops

/-!
Embedding of the migration operation list and its (de)serialization:
`Operation`, `OperationList.MarshalJSON`, `OperationList.UnmarshalJSON`
and `AvailableOperations`.  A `gomodels.Fields` payload is abstracted to
an association list with opaque descriptor payloads (`Nat`); the JSON
encoding of one operation struct is modelled structurally by `Raw`,
which records the `Model` key and whether the `Fields` key holds an
object (the map shape of CreateModel/AddFields) or an array (the slice
shape of RemoveFields) — the shapes `encoding/json` distinguishes. -/

/-- Abstracted `gomodels.Fields` payload: field name to descriptor. -/
abbrev FieldsP := List (String × Nat)

/-- The four operation structs of the operations source file. -/
inductive Operation where
  | createModel (model : String) (fields : FieldsP)
  | deleteModel (model : String)
  | addFields (model : String) (fields : FieldsP)
  | removeFields (model : String) (fields : List String)
  deriving Repr, DecidableEq

/-- The `Name()` method of each operation. -/
def Operation.nameOf : Operation → String
  | .createModel .. => "CreateModel"
  | .deleteModel .. => "DeleteModel"
  | .addFields .. => "AddFields"
  | .removeFields .. => "RemoveFields"

/-- The serialized form of one operation struct: the `Model` string and
the `Fields` key, which is absent, an object, or an array. -/
structure Raw where
  model : String := ""
  fieldsMap : Option FieldsP := none
  fieldsArr : Option (List String) := none
  deriving Repr, DecidableEq

/-- What `json.Marshal` produces for each operation struct. -/
def encodeOp : Operation → Raw
  | .createModel m f => { model := m, fieldsMap := some f }
  | .deleteModel m => { model := m }
  | .addFields m f => { model := m, fieldsMap := some f }
  | .removeFields m fs => { model := m, fieldsArr := some fs }

/-- The kind of registry prototype an operation name resolves to. -/
inductive OpKind where
  | createModelK
  | deleteModelK
  | addFieldsK
  | removeFieldsK
  deriving Repr, DecidableEq

/-- `AvailableOperations`: the registry maps exactly the names
CreateModel, DeleteModel and AddFields to prototypes; RemoveFields is
not registered. -/
def availableOperations (name : String) : Option OpKind :=
  if name = "CreateModel" then some .createModelK
  else if name = "DeleteModel" then some .deleteModelK
  else if name = "AddFields" then some .addFieldsK
  else none

/-- `FromJSON` of each prototype, i.e. `json.Unmarshal` into the
prototype's struct: absent keys keep their zero value, and a `Fields`
payload of the wrong JSON shape (array where the struct holds a map, or
vice versa) fails with a type-mismatch error. -/
def fromJSON : OpKind → Raw → Except String Operation
  | .createModelK, r =>
      match r.fieldsArr with
      | some _ => .error "json: cannot unmarshal array into Fields"
      | none => .ok (.createModel r.model (r.fieldsMap.getD []))
  | .deleteModelK, r => .ok (.deleteModel r.model)
  | .addFieldsK, r =>
      match r.fieldsArr with
      | some _ => .error "json: cannot unmarshal array into Fields"
      | none => .ok (.addFields r.model (r.fieldsMap.getD []))
  | .removeFieldsK, r =>
      match r.fieldsMap with
      | some _ => .error "json: cannot unmarshal object into Fields"
      | none => .ok (.removeFields r.model (r.fieldsArr.getD []))

/-- `OperationList.MarshalJSON`: each operation becomes the single-key
object `{op.Name(): op}`, in list order. -/
def marshalJSON (ops : List Operation) : List (String × Raw) :=
  ops.map (fun op => (op.nameOf, encodeOp op))

/-- The loop of `OperationList.UnmarshalJSON`.  `origOp` is the receiver
list `*op`, `opList` the local accumulator.  The source's loop body is
`opList = append(*op, operation)` — it appends to the unchanged receiver
`*op` rather than to `opList`, so every iteration discards the
operations gathered so far. -/
def unmarshalLoop (origOp : List Operation) :
    List (String × Raw) → List Operation → Except String (List Operation)
  | [], opList => .ok opList
  | (name, rawOp) :: rest, _ =>
      match availableOperations name with
      | none => .error ("invalid operation: " ++ name)
      | some native =>
          match fromJSON native rawOp with
          | .error e => .error e
          | .ok operation => unmarshalLoop origOp rest (origOp ++ [operation])

/-- `OperationList.UnmarshalJSON` on a receiver holding `op`: parse the
raw list and run the loop; on success the receiver becomes the final
accumulator. -/
def unmarshalJSON (op : List Operation) (data : List (String × Raw)) :
    Except String (List Operation) :=
  unmarshalLoop op data op

/-- Claim C5: refuting evaluation.  Serializing the two-element list
[DeleteModel A, DeleteModel B] and deserializing the result yields the
one-element list [DeleteModel B]: each loop iteration of UnmarshalJSON
appends to the untouched receiver instead of the accumulator, so only
the last operation survives.  A one-element list (the only length the
repository's own test exercises) does round-trip. -/
theorem unmarshal_of_marshal_keeps_only_last :
    unmarshalJSON []
        (marshalJSON [Operation.deleteModel "A", Operation.deleteModel "B"])
      = .ok [Operation.deleteModel "B"]
    ∧ ([Operation.deleteModel "B"] : List Operation)
      ≠ [Operation.deleteModel "A", Operation.deleteModel "B"]
    ∧ unmarshalJSON [] (marshalJSON [Operation.deleteModel "A"])
      = .ok [Operation.deleteModel "A"] :=
  ⟨rfl, by decide, rfl⟩

/-- Claim C10: counterexample.  An input containing the unregistered
name RemoveFields need not produce an "invalid operation" error: if an
earlier entry's payload is malformed, the loop stops there first with a
type-mismatch error. -/
theorem unmarshal_unknown_name_not_always_reported :
    unmarshalJSON []
        [("CreateModel", { model := "M", fieldsArr := some ["a"] }),
         ("RemoveFields", { model := "M", fieldsArr := some ["a"] })]
      = .error "json: cannot unmarshal array into Fields"
    ∧ "json: cannot unmarshal array into Fields"
      ≠ "invalid operation: RemoveFields" :=
  ⟨rfl, by decide⟩

/-- The loop reports the first unregistered name when every earlier
entry parses. -/
theorem unmarshalLoop_error_of_unregistered (origOp : List Operation)
    (pre : List (String × Raw)) :
    ∀ (acc : List Operation) (name : String) (raw : Raw)
      (post : List (String × Raw)),
      (∀ p ∈ pre, ∃ k op, availableOperations p.1 = some k
        ∧ fromJSON k p.2 = .ok op) →
      availableOperations name = none →
      unmarshalLoop origOp (pre ++ (name, raw) :: post) acc
        = .error ("invalid operation: " ++ name) := by
  induction pre with
  | nil =>
      intro acc name raw post _ hname
      simp only [List.nil_append, unmarshalLoop, hname]
  | cons p ps ih =>
      intro acc name raw post hpre hname
      obtain ⟨pn, pr⟩ := p
      obtain ⟨k, op, hk, hop⟩ := hpre (pn, pr) (List.mem_cons_self _ _)
      simp only [List.cons_append, unmarshalLoop]
      simp only at hk hop
      simp only [hk, hop]
      exact ih (origOp ++ [op]) name raw post
        (fun q hq => hpre q (List.mem_cons_of_mem _ hq)) hname

/-- Claim C10 (amended): the registry contains exactly the names
CreateModel, DeleteModel and AddFields (RemoveFields is absent), and for
every input in which an unregistered operation name appears after
entries that are all registered operations with well-formed payloads,
UnmarshalJSON returns the error "invalid operation: name" for that
unregistered name. -/
theorem unmarshal_rejects_unregistered :
    (availableOperations "CreateModel" = some .createModelK
      ∧ availableOperations "DeleteModel" = some .deleteModelK
      ∧ availableOperations "AddFields" = some .addFieldsK
      ∧ availableOperations "RemoveFields" = none
      ∧ ∀ n, (availableOperations n).isSome →
          n = "CreateModel" ∨ n = "DeleteModel" ∨ n = "AddFields")
    ∧ ∀ (init : List Operation) (pre : List (String × Raw)) (name : String)
        (raw : Raw) (post : List (String × Raw)),
        (∀ p ∈ pre, ∃ k op, availableOperations p.1 = some k
          ∧ fromJSON k p.2 = .ok op) →
        availableOperations name = none →
        unmarshalJSON init (pre ++ (name, raw) :: post)
          = .error ("invalid operation: " ++ name) := by
  constructor
  · refine ⟨rfl, rfl, rfl, rfl, ?_⟩
    intro n h
    unfold availableOperations at h
    split_ifs at h with h1 h2 h3
    · exact Or.inl h1
    · exact Or.inr (Or.inl h2)
    · exact Or.inr (Or.inr h3)
    · simp at h
  · intro init pre name raw post hpre hname
    exact unmarshalLoop_error_of_unregistered init pre init name raw post hpre hname

/-- Witness for the amended C10 theorem at a concrete input: one
well-formed DeleteModel entry followed by the unregistered name
RemoveFields. -/
theorem unmarshal_rejects_unregistered_witness :
    unmarshalJSON []
        [("DeleteModel", { model := "X" }),
         ("RemoveFields", { model := "M", fieldsArr := some ["a"] })]
      = .error "invalid operation: RemoveFields" := by
  have h := unmarshal_rejects_unregistered.2 []
    [("DeleteModel", { model := "X" })] "RemoveFields"
    { model := "M", fieldsArr := some ["a"] } []
    (by
      intro p hp
      rw [List.mem_singleton] at hp
      subst hp
      exact ⟨.deleteModelK, .deleteModel "X", rfl, rfl⟩)
    rfl
  exact h

end Ops

namespace FieldOps

/-!
Embedding of the AddFields/RemoveFields operations of the migrations
package: `SetState`, `Run` and `Backwards`.  Field descriptors are
opaque payloads (`Nat`), `gomodels.Fields` maps and the state's model
map are association lists, and a `Run`/`Backwards` body is modelled by
the single engine call it issues.  A Go map lookup that can yield a nil
pointer is an `Option`; paths that would dereference such a nil (or a
nil map entry) are `none`. -/

/-- Opaque field descriptor payload. -/
abbrev GField := Nat

/-- `gomodels.Fields` as an association list. -/
abbrev GFields := List (String × GField)

/-- Map lookup on a field map. -/
def lookupF : GFields → String → Option GField
  | [], _ => none
  | e :: rest, n => if e.1 = n then some e.2 else lookupF rest n

/-- `delete(fields, n)`: removes the entry keyed `n`. -/
def eraseF : GFields → String → GFields
  | [], _ => []
  | e :: rest, n => if e.1 = n then eraseF rest n else e :: eraseF rest n

/-- A `gomodels.Model` as the migrations package sees it: name, resolved
table name, field map and index map.  (The `Table()` fallback deriving a
default name from the registered app is elided: `SetState` copies the
`Table()` output verbatim, so only the resolved value matters here.) -/
structure GModel where
  name : String
  table : String
  fields : GFields
  indexes : List (String × List String)
  deriving Repr, DecidableEq

/-- The migrations `AppState`: its model map. -/
structure AppState where
  models : List (String × GModel)
  deriving Repr, DecidableEq

/-- `state.Models[n]`, `none` for the missing-key nil pointer. -/
def lookupModel (s : AppState) (n : String) : Option GModel :=
  (s.models.find? (fun e => e.1 == n)).map Prod.snd

/-- `delete(state.Models, n)`. -/
def eraseModel (s : AppState) (n : String) : List (String × GModel) :=
  s.models.filter (fun e => !(e.1 == n))

/-- `gomodels.New(name, fields, options).Model`: the constructor only
stores its arguments (registration is a separate step). -/
def mkNew (name : String) (fields : GFields) (table : String)
    (indexes : List (String × List String)) : GModel :=
  { name := name, table := table, fields := fields, indexes := indexes }

/-- The `AddFields` operation struct. -/
structure AddFieldsOp where
  model : String
  fields : GFields
  deriving Repr, DecidableEq

/-- The `RemoveFields` operation struct. -/
structure RemoveFieldsOp where
  model : String
  fields : List String
  deriving Repr, DecidableEq

/-- The physical work a `Run`/`Backwards` body performs: the engine call
it issues, with the model pointers it passes (nil as `none`). -/
inductive EngineCall where
  | dropColumns (m1 m2 : Option GModel) (names : List String)
  | addColumns (m : Option GModel) (fields : GFields)
  deriving Repr, DecidableEq

/-- `AddFields.Run`: `tx.AddColumns(state.Models[op.Model], op.Fields)`. -/
def AddFieldsOp.run (op : AddFieldsOp) (state _prevState : AppState) : EngineCall :=
  .addColumns (lookupModel state op.model) op.fields

/-- `AddFields.Backwards`: collects the names of `op.Fields` and calls
`tx.DropColumns(state.Models[op.Model], prevState.Models[op.Model], names...)`. -/
def AddFieldsOp.backwards (op : AddFieldsOp) (state prevState : AppState) : EngineCall :=
  .dropColumns (lookupModel state op.model) (lookupModel prevState op.model)
    (op.fields.map Prod.fst)

/-- `RemoveFields.Run`:
`tx.DropColumns(prevState.Models[op.Model], state.Models[op.Model], op.Fields...)`. -/
def RemoveFieldsOp.run (op : RemoveFieldsOp) (state prevState : AppState) : EngineCall :=
  .dropColumns (lookupModel prevState op.model) (lookupModel state op.model) op.fields

/-- The field map restricted to the given names, in name order. -/
def restrictF (fs : GFields) (names : List String) : GFields :=
  names.filterMap (fun n => (lookupF fs n).map (fun f => (n, f)))

/-- `RemoveFields.Backwards`: reads the removed fields' descriptors from
`prevState.Models[op.Model].Fields()` and calls
`tx.AddColumns(state.Models[op.Model], newFields)`.  A missing model (a
nil-pointer method call in Go) or a missing field entry (a nil
descriptor stored in `newFields`) is `none`. -/
def RemoveFieldsOp.backwards (op : RemoveFieldsOp) (state prevState : AppState) :
    Option EngineCall := do
  let prevModel ← lookupModel prevState op.model
  let newFields ← op.fields.mapM (fun n => (lookupF prevModel.fields n).map (fun f => (n, f)))
  pure (.addColumns (lookupModel state op.model) newFields)

/-- When every name resolves, collecting the descriptors succeeds and
yields the restriction of the field map to those names. -/
theorem mapM_lookup_eq_restrict (fs : GFields) :
    ∀ names : List String, (∀ n ∈ names, (lookupF fs n).isSome) →
      names.mapM (fun n => (lookupF fs n).map (fun f => (n, f)))
        = some (restrictF fs names) := by
  intro names
  induction names with
  | nil => intro _; rfl
  | cons n rest ih =>
      intro h
      obtain ⟨f, hf⟩ := Option.isSome_iff_exists.mp (h n (List.mem_cons_self _ _))
      have hrest := ih (fun m hm => h m (List.mem_cons_of_mem _ hm))
      simp only [List.mapM_cons, hf, hrest, restrictF, List.filterMap_cons,
        Option.map_some']
      rfl

/-- Claim C6: `AddFields.Backwards` issues the same engine call as
`RemoveFields.Run` on the same field names and the mirrored state pair
(rolling back sees the pair the forward run saw, swapped), and
`RemoveFields.Backwards` issues the same engine call as `AddFields.Run`
for the field set read back from the prior state. -/
theorem add_remove_fields_inverse_calls :
    (∀ (m : String) (fset : GFields) (s p : AppState),
      AddFieldsOp.backwards ⟨m, fset⟩ s p
        = RemoveFieldsOp.run ⟨m, fset.map Prod.fst⟩ p s)
    ∧ ∀ (m : String) (names : List String) (s p : AppState) (pm : GModel),
        lookupModel p m = some pm →
        (∀ n ∈ names, (lookupF pm.fields n).isSome) →
        RemoveFieldsOp.backwards ⟨m, names⟩ s p
          = some (AddFieldsOp.run ⟨m, restrictF pm.fields names⟩ s p) := by
  constructor
  · intro m fset s p
    rfl
  · intro m names s p pm hpm hnames
    simp only [RemoveFieldsOp.backwards, hpm, Option.bind_eq_bind,
      Option.some_bind, mapM_lookup_eq_restrict pm.fields names hnames]
    rfl

/-- Witness states for the C6 theorem: `before` lacks the `email`
field, `after` has it. -/
def beforeState : AppState :=
  ⟨[("User", ⟨"User", "users_user", [("id", 0)], []⟩)]⟩

/-- The state holding the added `email` field. -/
def afterState : AppState :=
  ⟨[("User", ⟨"User", "users_user", [("id", 0), ("email", 1)], []⟩)]⟩

/-- Witness for claim C6 at the concrete `User`/`email` instance. -/
theorem add_remove_fields_inverse_calls_witness :
    AddFieldsOp.backwards ⟨"User", [("email", 1)]⟩ afterState beforeState
      = RemoveFieldsOp.run ⟨"User", ["email"]⟩ beforeState afterState
    ∧ RemoveFieldsOp.backwards ⟨"User", ["email"]⟩ beforeState afterState
      = some (AddFieldsOp.run
          ⟨"User", restrictF [("id", 0), ("email", 1)] ["email"]⟩
          beforeState afterState) :=
  ⟨add_remove_fields_inverse_calls.1 "User" [("email", 1)] afterState beforeState,
   add_remove_fields_inverse_calls.2 "User" ["email"] beforeState afterState
     ⟨"User", "users_user", [("id", 0), ("email", 1)], []⟩ rfl (by decide)⟩

/-- The deletion loop of `RemoveFields.SetState`: it walks `op.Fields`
over the copied field map, failing on the first name not found in the
map as mutated so far, deleting found names. -/
def removeLoop (modelName : String) : List String → GFields → Except String GFields
  | [], fs => .ok fs
  | n :: rest, fs =>
      if (lookupF fs n).isSome then removeLoop modelName rest (eraseF fs n)
      else .error (modelName ++ ": field not found: " ++ n)

/-- `RemoveFields.SetState` on a state, returning the error (if any) and
the resulting state.  The field map the loop mutates is the fresh copy
returned by `Model.Fields()`, so the error returns leave the given state
as it was; on success the model entry is replaced by
`gomodels.New(op.Model, fields, Options{Table, Indexes})`. -/
def removeFieldsSetState (op : RemoveFieldsOp) (state : AppState) :
    Option String × AppState :=
  match lookupModel state op.model with
  | none => (some ("model not found: " ++ op.model), state)
  | some model =>
      match removeLoop op.model op.fields model.fields with
      | .error e => (some e, state)
      | .ok fields =>
          (none,
           ⟨eraseModel state op.model
             ++ [(op.model, mkNew op.model fields model.table model.indexes)]⟩)

/-- `eraseF` agrees with filtering the key out. -/
theorem eraseF_eq_filter (fs : GFields) (n : String) :
    eraseF fs n = fs.filter (fun e => !(e.1 == n)) := by
  induction fs with
  | nil => rfl
  | cons e rest ih =>
      by_cases h : e.1 = n
      · simp [eraseF, h, ih]
      · simp [eraseF, h, ih]

/-- Looking a key up after deleting one: the deleted key is gone, the
others are untouched. -/
theorem lookupF_eraseF (fs : GFields) (n m : String) :
    lookupF (eraseF fs n) m = if m = n then none else lookupF fs m := by
  induction fs with
  | nil => simp [lookupF, eraseF]
  | cons e rest ih =>
      by_cases hen : e.1 = n
      · by_cases hmn : m = n
        · subst hmn
          simp [eraseF, hen, ih]
        · have hnm : ¬ n = m := fun h => hmn h.symm
          simp [eraseF, hen, ih, hmn, lookupF, hnm]
      · by_cases hem : e.1 = m
        · have hmn : ¬ m = n := fun h => hen (hem.trans h)
          simp [eraseF, hen, lookupF, hem, hmn]
        · simp [eraseF, hen, lookupF, hem, ih]

/-- The deletion loop succeeds exactly when every name is present in the
original map and the names do not repeat. -/
theorem removeLoop_ok_iff (modelName : String) :
    ∀ (names : List String) (fs : GFields),
      (∃ g, removeLoop modelName names fs = .ok g)
        ↔ (∀ n ∈ names, (lookupF fs n).isSome) ∧ names.Nodup := by
  intro names
  induction names with
  | nil =>
      intro fs
      simp [removeLoop]
  | cons n rest ih =>
      intro fs
      by_cases hn : (lookupF fs n).isSome
      · rw [show removeLoop modelName (n :: rest) fs
              = removeLoop modelName rest (eraseF fs n) by
            simp [removeLoop, hn]]
        rw [ih (eraseF fs n)]
        constructor
        · rintro ⟨hall, hnd⟩
          have hnotin : n ∉ rest := by
            intro hmem
            have := hall n hmem
            rw [lookupF_eraseF] at this
            simp at this
          refine ⟨?_, List.nodup_cons.mpr ⟨hnotin, hnd⟩⟩
          intro m hm
          rcases List.mem_cons.mp hm with h | h
          · exact h ▸ hn
          · have := hall m h
            rw [lookupF_eraseF] at this
            by_cases hmn : m = n
            · simp [hmn] at this
            · simpa [hmn] using this
        · rintro ⟨hall, hnd⟩
          obtain ⟨hnotin, hnd'⟩ := List.nodup_cons.mp hnd
          refine ⟨?_, hnd'⟩
          intro m hm
          rw [lookupF_eraseF]
          have hmn : ¬ m = n := fun h => hnotin (h ▸ hm)
          simp only [hmn, if_false]
          exact hall m (List.mem_cons_of_mem _ hm)
      · constructor
        · rintro ⟨g, hg⟩
          simp [removeLoop, hn] at hg
        · rintro ⟨hall, _⟩
          exact absurd (hall n (List.mem_cons_self _ _)) hn

/-- On success the deletion loop removes exactly the entries whose key
is among the names. -/
theorem removeLoop_ok_val (modelName : String) :
    ∀ (names : List String) (fs g : GFields),
      removeLoop modelName names fs = .ok g →
      g = fs.filter (fun e => !(names.contains e.1)) := by
  intro names
  induction names with
  | nil =>
      intro fs g hg
      simp only [removeLoop] at hg
      cases hg
      simp
  | cons n rest ih =>
      intro fs g hg
      by_cases hn : (lookupF fs n).isSome
      · simp only [removeLoop, hn, if_true] at hg
        have := ih (eraseF fs n) g hg
        rw [this, eraseF_eq_filter, List.filter_filter]
        apply List.filter_congr
        intro e _
        simp only [List.contains_cons, Bool.not_or, Bool.and_comm]
      · simp [removeLoop, hn] at hg

/-- A state whose only model holds the single field `a`. -/
def dupState : AppState :=
  ⟨[("User", ⟨"User", "users_user", [("a", 0)], []⟩)]⟩

/-- Claim C7: counterexample.  With the field list ["a", "a"] against a
model that does have field `a`, `RemoveFields.SetState` errors — the
first pass deletes `a` from the copied map, so the second occurrence is
reported as not found — although the target model is present and every
named field is in the model's field map. -/
theorem removeFields_setState_duplicate_errors :
    (removeFieldsSetState ⟨"User", ["a", "a"]⟩ dupState).1
      = some "User: field not found: a"
    ∧ (lookupModel dupState "User").isSome
    ∧ ∀ n ∈ ["a", "a"], (lookupF [("a", 0)] n).isSome :=
  ⟨rfl, rfl, by decide⟩

/-- Claim C7 (amended): `RemoveFields.SetState` errors exactly when the
target model is missing, one of the named fields is missing from its
field map, or the field list names the same field twice; on success the
model entry is rebuilt with exactly the named fields removed (table and
indexes kept); on error the application state is returned unchanged. -/
theorem removeFields_setState_spec (op : RemoveFieldsOp) (s : AppState) :
    (lookupModel s op.model = none →
       removeFieldsSetState op s = (some ("model not found: " ++ op.model), s))
    ∧ ∀ model, lookupModel s op.model = some model →
        (((removeFieldsSetState op s).1 = none
            ↔ (∀ n ∈ op.fields, (lookupF model.fields n).isSome) ∧ op.fields.Nodup)
          ∧ ((removeFieldsSetState op s).1 ≠ none → (removeFieldsSetState op s).2 = s)
          ∧ ((removeFieldsSetState op s).1 = none →
              (removeFieldsSetState op s).2
                = ⟨eraseModel s op.model
                    ++ [(op.model,
                         mkNew op.model
                           (model.fields.filter (fun e => !(op.fields.contains e.1)))
                           model.table model.indexes)]⟩)) := by
  constructor
  · intro h
    simp [removeFieldsSetState, h]
  · intro model hmod
    cases hloop : removeLoop op.model op.fields model.fields with
    | error e =>
        have hres : removeFieldsSetState op s = (some e, s) := by
          simp [removeFieldsSetState, hmod, hloop]
        refine ⟨?_, ?_, ?_⟩
        · rw [hres]
          simp only [ne_eq, reduceCtorEq, false_iff]
          intro hrhs
          obtain ⟨g, hg⟩ := (removeLoop_ok_iff op.model op.fields model.fields).mpr hrhs
          rw [hloop] at hg
          cases hg
        · intro _
          rw [hres]
        · intro hnone
          rw [hres] at hnone
          cases hnone
    | ok g =>
        have hres : removeFieldsSetState op s
            = (none,
               ⟨eraseModel s op.model
                 ++ [(op.model, mkNew op.model g model.table model.indexes)]⟩) := by
          simp [removeFieldsSetState, hmod, hloop]
        have hg := removeLoop_ok_val op.model op.fields model.fields g hloop
        refine ⟨?_, ?_, ?_⟩
        · rw [hres]
          simp only [true_iff]
          exact (removeLoop_ok_iff op.model op.fields model.fields).mp ⟨g, hloop⟩
        · intro hne
          rw [hres] at hne
          simp at hne
        · intro _
          rw [hres, hg]

/-- The state used to witness the amended C7 theorem. -/
def c7State : AppState :=
  ⟨[("User", ⟨"User", "users_user", [("id", 0), ("email", 1)], []⟩)]⟩

/-- Witness for the amended C7 theorem: removing the present field
`email` succeeds with exactly that field gone; removing the absent field
`missing` errors and returns the state unchanged. -/
theorem removeFields_setState_spec_witness :
    (removeFieldsSetState ⟨"User", ["email"]⟩ c7State).1 = none
    ∧ (removeFieldsSetState ⟨"User", ["email"]⟩ c7State).2
      = ⟨eraseModel c7State "User"
          ++ [("User",
               mkNew "User"
                 (([("id", 0), ("email", 1)] : GFields).filter
                   (fun e => !((["email"] : List String).contains e.1)))
                 "users_user" [])]⟩
    ∧ (removeFieldsSetState ⟨"User", ["missing"]⟩ c7State).2 = c7State := by
  have h1 := (removeFields_setState_spec ⟨"User", ["email"]⟩ c7State).2
    ⟨"User", "users_user", [("id", 0), ("email", 1)], []⟩ rfl
  have h2 := (removeFields_setState_spec ⟨"User", ["missing"]⟩ c7State).2
    ⟨"User", "users_user", [("id", 0), ("email", 1)], []⟩ rfl
  have hok : (removeFieldsSetState ⟨"User", ["email"]⟩ c7State).1 = none :=
    h1.1.mpr (by decide)
  exact ⟨hok, h1.2.2 hok, h2.2.1 (by decide)⟩

end FieldOps

namespace Diff

/-!
Embedding of the diff engine `getModelChanges`.  The recorded
application state is passed explicitly (the source reads the global
`history` map).  Go map iteration carries no order of its own; here it
is the association list's order, which the source never normalises. -/

/-- Opaque field descriptor payload. -/
abbrev DField := Nat

/-- Field map of a declared model or model state. -/
abbrev DFields := List (String × DField)

/-- Index map: index name to indexed field names. -/
abbrev DIndexes := List (String × List String)

/-- Key membership in a Go map modelled as an association list. -/
def hasKey {α : Type} (l : List (String × α)) (n : String) : Bool :=
  l.any (fun e => e.1 == n)

/-- A `gomodels.Model` as the diff sees it: name, owning app name,
declared meta table (empty when unset), field map and index map. -/
structure DModel where
  name : String
  appName : String
  table : String
  fields : DFields
  indexes : DIndexes
  deriving Repr, DecidableEq

/-- `Model.Table()`: the declared table, or the lowercased
`app_name` default when unset. -/
def DModel.tableName (m : DModel) : String :=
  if m.table = "" then m.appName.toLower ++ "_" ++ m.name.toLower else m.table

/-- The operations the diff can emit. -/
inductive Operation where
  | createModel (name table : String) (fields : DFields)
  | removeIndex (model idx : String)
  | removeFields (model : String) (names : List String)
  | addFields (model : String) (fields : DFields)
  | addIndex (model idx : String) (fieldNames : List String)
  deriving Repr, DecidableEq

/-- `state.models[name]` with its ok flag. -/
def lookupState (l : List (String × DModel)) (n : String) : Option DModel :=
  (l.find? (fun e => e.1 == n)).map Prod.snd

/-- `getModelChanges`: the diff of one declared model against the
recorded state, transcribed loop by loop (each Go `append` becomes a
fold step). -/
def getModelChanges (model : DModel) (stateModels : List (String × DModel)) :
    List Operation :=
  match lookupState stateModels model.name with
  | none =>
      let tbl := if model.tableName ≠ model.appName ++ model.name
        then model.tableName else ""
      let operations := ([] : List Operation)
        ++ [Operation.createModel model.name tbl model.fields]
      model.indexes.foldl
        (fun ops e => ops ++ [Operation.addIndex model.name e.1 e.2]) operations
  | some modelState =>
      let operations := modelState.indexes.foldl
        (fun ops e => if hasKey model.indexes e.1 then ops
          else ops ++ [Operation.removeIndex model.name e.1]) []
      let removedFields := modelState.fields.foldl
        (fun acc e => if hasKey model.fields e.1 then acc else acc ++ [e.1])
        ([] : List String)
      let operations := if removedFields.length > 0
        then operations ++ [Operation.removeFields model.name removedFields]
        else operations
      let newFields := model.fields.foldl
        (fun acc e => if hasKey modelState.fields e.1 then acc else acc ++ [e])
        ([] : DFields)
      let operations := if newFields.length > 0
        then operations ++ [Operation.addFields model.name newFields]
        else operations
      model.indexes.foldl
        (fun ops e => if hasKey modelState.indexes e.1 then ops
          else ops ++ [Operation.addIndex model.name e.1 e.2]) operations

/-- A guarded appending fold is the initial list followed by the mapped
filtered entries. -/
theorem foldl_guard_append {α β : Type} (p : α → Bool) (g : α → β) :
    ∀ (l : List α) (init : List β),
      l.foldl (fun acc e => if p e then acc else acc ++ [g e]) init
        = init ++ (l.filter (fun e => !(p e))).map g := by
  intro l
  induction l with
  | nil => intro init; simp
  | cons e rest ih =>
      intro init
      by_cases h : p e
      · simp [List.foldl_cons, h, ih, List.filter_cons]
      · simp [List.foldl_cons, h, ih, List.filter_cons, List.append_assoc]

/-- An unconditional appending fold is the initial list followed by the
mapped entries. -/
theorem foldl_append_map {α β : Type} (g : α → β) :
    ∀ (l : List α) (init : List β),
      l.foldl (fun acc e => acc ++ [g e]) init = init ++ l.map g := by
  intro l
  induction l with
  | nil => intro init; simp
  | cons e rest ih => intro init; simp [List.foldl_cons, ih, List.append_assoc]

/-- Every key of a map is present in it. -/
theorem hasKey_of_mem {α : Type} {l : List (String × α)} {e : String × α}
    (h : e ∈ l) : hasKey l e.1 = true :=
  List.any_eq_true.mpr ⟨e, h, by simp⟩

/-- Claim C3: for a declared model present in the recorded state the
diff is the removed indexes (one RemoveIndex each), then a single
RemoveFields batching every field name absent from the declaration (only
when there are any), then a single AddFields batching every newly
declared field (only when there are any), then one AddIndex per newly
declared index — so RemoveFields/AddFields precede every AddIndex — and
a declared model equal to its recorded state diffs to the empty list. -/
theorem diff_present_model (model : DModel) (stateModels : List (String × DModel))
    (ms : DModel) (h : lookupState stateModels model.name = some ms) :
    (getModelChanges model stateModels
      = ((ms.indexes.filter (fun e => !(hasKey model.indexes e.1))).map
           (fun e => Operation.removeIndex model.name e.1))
        ++ (let removed := (ms.fields.filter
              (fun e => !(hasKey model.fields e.1))).map Prod.fst
            if removed.length > 0
              then [Operation.removeFields model.name removed] else [])
        ++ (let newF := model.fields.filter (fun e => !(hasKey ms.fields e.1))
            if newF.length > 0
              then [Operation.addFields model.name newF] else [])
        ++ ((model.indexes.filter (fun e => !(hasKey ms.indexes e.1))).map
             (fun e => Operation.addIndex model.name e.1 e.2)))
    ∧ (ms.fields = model.fields → ms.indexes = model.indexes →
        getModelChanges model stateModels = []) := by
  have hchar : getModelChanges model stateModels
      = ((ms.indexes.filter (fun e => !(hasKey model.indexes e.1))).map
           (fun e => Operation.removeIndex model.name e.1))
        ++ (let removed := (ms.fields.filter
              (fun e => !(hasKey model.fields e.1))).map Prod.fst
            if removed.length > 0
              then [Operation.removeFields model.name removed] else [])
        ++ (let newF := model.fields.filter (fun e => !(hasKey ms.fields e.1))
            if newF.length > 0
              then [Operation.addFields model.name newF] else [])
        ++ ((model.indexes.filter (fun e => !(hasKey ms.indexes e.1))).map
             (fun e => Operation.addIndex model.name e.1 e.2)) := by
    simp only [getModelChanges, h]
    rw [foldl_guard_append, foldl_guard_append, foldl_guard_append,
      foldl_guard_append]
    by_cases h1 : 0 < (ms.fields.filter
          (fun e => !(hasKey model.fields e.1))).length
      <;> by_cases h2 : 0 < (model.fields.filter
          (fun e => !(hasKey ms.fields e.1))).length
      <;> simp [h1, h2, List.append_assoc]
  refine ⟨hchar, ?_⟩
  intro hf hi
  rw [hchar]
  have h1 : ms.indexes.filter (fun e => !(hasKey model.indexes e.1)) = [] := by
    rw [hi]
    refine List.filter_eq_nil_iff.mpr ?_
    intro a ha
    simp [hasKey_of_mem ha]
  have h2 : ms.fields.filter (fun e => !(hasKey model.fields e.1)) = [] := by
    rw [hf]
    refine List.filter_eq_nil_iff.mpr ?_
    intro a ha
    simp [hasKey_of_mem ha]
  have h3 : model.fields.filter (fun e => !(hasKey ms.fields e.1)) = [] := by
    rw [hf]
    refine List.filter_eq_nil_iff.mpr ?_
    intro a ha
    simp [hasKey_of_mem ha]
  have h4 : model.indexes.filter (fun e => !(hasKey ms.indexes e.1)) = [] := by
    rw [hi]
    refine List.filter_eq_nil_iff.mpr ?_
    intro a ha
    simp [hasKey_of_mem ha]
  simp [h1, h2, h3, h4]

/-- The declared model used to witness claim C3. -/
def c3Model : DModel :=
  ⟨"User", "users", "", [("id", 0), ("email", 1)], [("i1", ["id"])]⟩

/-- The recorded state of that model: one removed field, one removed
index, relative to the declaration. -/
def c3State : DModel :=
  ⟨"User", "users", "", [("id", 0), ("active", 2)], [("i0", ["id"])]⟩

/-- Witness for claim C3 at a concrete model pair, plus the
unchanged-model empty diff at a concrete model. -/
theorem diff_present_model_witness :
    getModelChanges c3Model [("User", c3State)]
      = [Operation.removeIndex "User" "i0",
         Operation.removeFields "User" ["active"],
         Operation.addFields "User" [("email", 1)],
         Operation.addIndex "User" "i1" ["id"]]
    ∧ getModelChanges c3Model [("User", c3Model)] = [] := by
  constructor
  · have h := (diff_present_model c3Model [("User", c3State)] c3State rfl).1
    rw [h]
    rfl
  · exact (diff_present_model c3Model [("User", c3Model)] c3Model rfl).2 rfl rfl

/-- Claim C4 (amended): for a declared model absent from the recorded
state the diff is one CreateModel carrying all declared fields (and the
table name when it is not the app-name/model-name concatenation),
followed by one AddIndex per declared index in the index map's own
iteration order — no sorting by index name is applied. -/
theorem diff_absent_model (model : DModel) (stateModels : List (String × DModel))
    (h : lookupState stateModels model.name = none) :
    getModelChanges model stateModels
      = Operation.createModel model.name
          (if model.tableName ≠ model.appName ++ model.name
            then model.tableName else "")
          model.fields
        :: model.indexes.map (fun e => Operation.addIndex model.name e.1 e.2) := by
  simp only [getModelChanges, h]
  rw [foldl_append_map]
  simp

/-- A model declaring its indexes in the order b_idx, a_idx. -/
def c4Model : DModel :=
  ⟨"User", "users", "users_user", [("id", 0)],
   [("b_idx", ["id"]), ("a_idx", ["id"])]⟩

/-- Claim C4: counterexample.  With indexes iterated in the order
b_idx, a_idx, the diff emits AddIndex b_idx before AddIndex a_idx even
though a_idx sorts first: the source applies no sorting to the index
map iteration. -/
theorem diff_addIndex_not_sorted :
    getModelChanges c4Model []
      = [Operation.createModel "User" "users_user" [("id", 0)],
         Operation.addIndex "User" "b_idx" ["id"],
         Operation.addIndex "User" "a_idx" ["id"]]
    ∧ ("a_idx" : String) < "b_idx" :=
  ⟨rfl, by rw [String.lt_iff_toList_lt]; decide⟩

/-- Witness for the amended C4 theorem at the concrete model. -/
theorem diff_absent_model_witness :
    getModelChanges c4Model []
      = Operation.createModel "User"
          (if c4Model.tableName ≠ c4Model.appName ++ c4Model.name
            then c4Model.tableName else "")
          c4Model.fields
        :: c4Model.indexes.map (fun e => Operation.addIndex "User" e.1 e.2) :=
  diff_absent_model c4Model [] rfl

end Diff

namespace Sqlite

/-!
Embedding of `SqliteEngine.DropColumns` and `SqliteEngine.copyTable`.
The engine is modelled by the list of statements it asks the executor
to run.  The `CreateTable`/`DropTable`/`RenameTable`/`AddIndex` emitters
of the base engine are not among the source files; per the spec's driver
engine boundary each is a DDL primitive, modelled as a structured
statement carrying exactly the data the call passes. -/

/-- A field descriptor as the engine reads it: only the custom column
option matters for the emitted column names. -/
structure Field where
  column : String := ""
  deriving Repr, DecidableEq

/-- `Field.DBColumn(name)`: the custom column when set, else the name. -/
def Field.dbColumn (f : Field) (name : String) : String :=
  if f.column = "" then name else f.column

/-- A model's field map. -/
abbrev Fields := List (String × Field)

/-- The model options the engine reads. -/
structure Options where
  table : String := ""
  indexes : List (String × List String) := []
  deriving Repr, DecidableEq

/-- A `gomodel.Model` as the engine reads it.  (`Model.Table()`'s
app-based default for an empty meta table is elided: the engine only
reads the resolved value.) -/
structure Model where
  fields : Fields := []
  meta : Options := {}
  deriving Repr, DecidableEq

/-- `Model.Table()`. -/
def Model.table (m : Model) : String := m.meta.table

/-- `Model.Indexes()`. -/
def Model.indexes (m : Model) : List (String × List String) := m.meta.indexes

/-- Field map lookup; `none` is Go's nil for a missing key. -/
def lookupField : Fields → String → Option Field
  | [], _ => none
  | e :: rest, n => if e.1 = n then some e.2 else lookupField rest n

/-- The statements the engine executes, in order. -/
inductive Stmt where
  | createTable (table : String) (columns : List String)
  | insertSelect (toTable : String) (columns : List String) (fromTable : String)
  | dropTable (table : String)
  | renameTable (oldTable newTable : String)
  | addIndex (table idx : String) (columns : List String)
  deriving Repr, DecidableEq

/-- The copy model's field-collection loop of `copyTable`: look each
listed name up in the original field map.  A missing name stores Go's
nil descriptor in the copy model, on which the next method call faults:
that path is `none`. -/
def collectCopyFields (fs : Fields) : List String → Option Fields
  | [] => some []
  | n :: rest =>
      match lookupField fs n with
      | none => none
      | some f =>
          match collectCopyFields fs rest with
          | none => none
          | some g => some ((n, f) :: g)

/-- `SqliteEngine.copyTable`: build the copy model (all fields when the
column list is empty, else the listed ones looked up by column name),
create its table, and copy-select its columns from the original. -/
def copyTable (m : Model) (name : String) (fields : List String) :
    Option (List Stmt) :=
  let copyFieldsOpt := if fields.length > 0
    then collectCopyFields m.fields fields
    else some m.fields
  match copyFieldsOpt with
  | none => none
  | some copyFields =>
      let columns := copyFields.map (fun e => e.2.dbColumn e.1)
      some [Stmt.createTable name columns,
            Stmt.insertSelect name columns m.table]

/-- `SqliteEngine.DropColumns`: delete the dropped names from the copied
field map, copy the table to `table__new` keeping the remaining columns,
drop the original, rename the copy back, and recreate the model's
indexes. -/
def dropColumns (m : Model) (fields : List String) : Option (List Stmt) :=
  let oldFields := m.fields.filter (fun e => !(fields.contains e.1))
  let keepCols := oldFields.map (fun e => e.2.dbColumn e.1)
  let copyName := m.table ++ "__new"
  match copyTable m copyName keepCols with
  | none => none
  | some copyStmts =>
      some (copyStmts
        ++ [Stmt.dropTable m.table, Stmt.renameTable copyName m.table]
        ++ m.indexes.map (fun e => Stmt.addIndex m.table e.1 e.2))

/-- A successful lookup returns an entry of the map. -/
theorem lookupField_mem (fs : Fields) :
    ∀ (n : String) (f : Field), lookupField fs n = some f → (n, f) ∈ fs := by
  induction fs with
  | nil => intro n f h; cases h
  | cons x rest ih =>
      obtain ⟨a, b⟩ := x
      intro n f h
      by_cases ha : a = n
      · subst ha
        rw [lookupField, if_pos rfl] at h
        injection h with h2
        subst h2
        exact List.mem_cons_self _ _
      · rw [lookupField, if_neg ha] at h
        exact List.mem_cons_of_mem _ (ih n f h)

/-- Every entry's key resolves. -/
theorem lookupField_isSome_of_mem (fs : Fields) (e : String × Field)
    (h : e ∈ fs) : (lookupField fs e.1).isSome := by
  induction fs with
  | nil => cases h
  | cons x rest ih =>
      by_cases hx : x.1 = e.1
      · simp [lookupField, hx]
      · rcases List.mem_cons.mp h with h1 | h1
        · subst h1
          exact absurd rfl hx
        · simp [lookupField, hx, ih h1]

/-- Collecting the listed columns from a default-column field map
succeeds, and the copy model's column list is the listed names again. -/
theorem collect_lookup_cols (fs : Fields) (hdef : ∀ e ∈ fs, e.2.column = "") :
    ∀ names : List String, (∀ n ∈ names, (lookupField fs n).isSome) →
      ∃ g, collectCopyFields fs names = some g
        ∧ g.map (fun e => e.2.dbColumn e.1) = names := by
  intro names
  induction names with
  | nil => intro _; exact ⟨[], rfl, rfl⟩
  | cons n rest ih =>
      intro h
      obtain ⟨f, hf⟩ := Option.isSome_iff_exists.mp (h n (List.mem_cons_self _ _))
      obtain ⟨g, hg, hcols⟩ := ih (fun m hm => h m (List.mem_cons_of_mem _ hm))
      refine ⟨(n, f) :: g, ?_, ?_⟩
      · simp [collectCopyFields, hf, hg]
      · have hfcol : f.column = "" := hdef (n, f) (lookupField_mem fs n f hf)
        simp only [List.map_cons, hcols]
        simp [Field.dbColumn, hfcol]

/-- `copyTable` on a non-empty list of resolvable default-name columns
creates the shadow table with exactly those columns and copy-selects
them. -/
theorem copyTable_cols (m : Model) (name : String) (names : List String)
    (hlen : 0 < names.length)
    (hnames : ∀ n ∈ names, (lookupField m.fields n).isSome)
    (hdef : ∀ e ∈ m.fields, e.2.column = "") :
    copyTable m name names
      = some [Stmt.createTable name names,
              Stmt.insertSelect name names m.table] := by
  obtain ⟨g, hg, hcols⟩ := collect_lookup_cols m.fields hdef names hnames
  simp only [copyTable, if_pos hlen, hg]
  rw [hcols]

/-- Claim C2 (amended): for a model whose fields use their default
column names and a drop set that keeps at least one field, DropColumns
executes exactly: create the shadow table with exactly the kept columns,
copy-select them, drop the original table, rename the shadow to the
original name, and recreate every index of the model. -/
theorem dropColumns_sequence (m : Model) (dropped : List String)
    (hne : dropped ≠ [])
    (hkeep : 0 < (m.fields.filter (fun e => !(dropped.contains e.1))).length)
    (hdef : ∀ e ∈ m.fields, e.2.column = "") :
    dropColumns m dropped
      = some ([Stmt.createTable (m.table ++ "__new")
                 ((m.fields.filter (fun e => !(dropped.contains e.1))).map Prod.fst),
               Stmt.insertSelect (m.table ++ "__new")
                 ((m.fields.filter (fun e => !(dropped.contains e.1))).map Prod.fst)
                 m.table,
               Stmt.dropTable m.table,
               Stmt.renameTable (m.table ++ "__new") m.table]
              ++ m.indexes.map (fun e => Stmt.addIndex m.table e.1 e.2)) := by
  have hsub : ∀ e ∈ m.fields.filter (fun e => !(dropped.contains e.1)),
      e ∈ m.fields := fun e he => (List.mem_filter.mp he).1
  have hcols : (m.fields.filter (fun e => !(dropped.contains e.1))).map
        (fun e => e.2.dbColumn e.1)
      = (m.fields.filter (fun e => !(dropped.contains e.1))).map Prod.fst := by
    refine List.map_congr_left ?_
    intro e he
    simp [Field.dbColumn, hdef e (hsub e he)]
  have hnames : ∀ n ∈ (m.fields.filter
        (fun e => !(dropped.contains e.1))).map Prod.fst,
      (lookupField m.fields n).isSome := by
    intro n hn
    obtain ⟨e, he, hfst⟩ := List.mem_map.mp hn
    subst hfst
    exact lookupField_isSome_of_mem m.fields e (hsub e he)
  have hlen : 0 < ((m.fields.filter
      (fun e => !(dropped.contains e.1))).map Prod.fst).length := by
    rw [List.length_map]
    exact hkeep
  simp only [dropColumns, hcols,
    copyTable_cols m (m.table ++ "__new")
      ((m.fields.filter (fun e => !(dropped.contains e.1))).map Prod.fst)
      hlen hnames hdef]
  rfl

/-- The two-field model used in the C2 counterexample. -/
def u2Model : Model :=
  { fields := [("id", {}), ("email", {})], meta := { table := "users_user" } }

/-- Claim C2: counterexample.  Dropping every field of the model leaves
an empty kept-column list, which `copyTable` treats as "copy all": the
shadow table is created with the full column set, not the (empty) kept
set.  And a field carrying a custom column name makes the copy model's
lookup fail (a nil descriptor in Go), so no such statement sequence is
executed at all. -/
theorem dropColumns_edge_cases :
    dropColumns u2Model ["id", "email"]
      = some [Stmt.createTable "users_user__new" ["id", "email"],
              Stmt.insertSelect "users_user__new" ["id", "email"] "users_user",
              Stmt.dropTable "users_user",
              Stmt.renameTable "users_user__new" "users_user"]
    ∧ (u2Model.fields.filter
        (fun e => !((["id", "email"] : List String).contains e.1))).map Prod.fst
      = []
    ∧ dropColumns
        { fields := [("id", { column := "custom" })], meta := { table := "t" } }
        ["email"]
      = none :=
  ⟨rfl, rfl, rfl⟩

/-- The `User` model of the claim's example. -/
def userModel : Model :=
  { fields := [("id", {}), ("email", {}), ("active", {})],
    meta := { table := "users_user", indexes := [("test_index", ["email"])] } }

/-- Witness for the amended C2 theorem: dropping `active` from
`User{id, email, active}` creates the shadow with exactly (id, email),
copies, drops, renames, and recreates the index. -/
theorem dropColumns_sequence_witness :
    dropColumns userModel ["active"]
      = some [Stmt.createTable "users_user__new" ["id", "email"],
              Stmt.insertSelect "users_user__new" ["id", "email"] "users_user",
              Stmt.dropTable "users_user",
              Stmt.renameTable "users_user__new" "users_user",
              Stmt.addIndex "users_user" "test_index" ["email"]] := by
  have h := dropColumns_sequence userModel ["active"] (by decide) (by decide)
    (by decide)
  rw [h]
  rfl

end Sqlite

namespace HeapM

/-!
Heap-explicit embedding of `Model.Fields()` and `Model.Indexes()`.  In
Go the model's field map, its index map and each index's field-name
slice are reference values, so the copying the two methods perform is
modelled against an explicit heap of cells; the theorem shows the
returned references are fresh and writes through them never change the
cells reachable from the model. -/

/-- A `map[string]Field` heap cell; descriptors opaque. -/
abbrev FieldsCell := List (String × Nat)

/-- A `[]string` heap cell: one index's field-name slice. -/
abbrev SliceCell := List String

/-- A `map[string][]string` heap cell: index name to slice reference. -/
abbrev IMapCell := List (String × Nat)

/-- The heap: cells for field maps, index maps and string slices,
addressed by position. -/
structure Heap where
  fcells : List FieldsCell
  icells : List IMapCell
  scells : List SliceCell
  deriving Repr, DecidableEq

/-- Read a field-map cell. -/
def readF (h : Heap) (a : Nat) : FieldsCell := h.fcells.getD a []

/-- Overwrite a field-map cell. -/
def writeF (h : Heap) (a : Nat) (c : FieldsCell) : Heap :=
  { h with fcells := h.fcells.set a c }

/-- Allocate a fresh field-map cell. -/
def allocF (h : Heap) (c : FieldsCell) : Nat × Heap :=
  (h.fcells.length, { h with fcells := h.fcells ++ [c] })

/-- Read an index-map cell. -/
def readI (h : Heap) (a : Nat) : IMapCell := h.icells.getD a []

/-- Overwrite an index-map cell. -/
def writeI (h : Heap) (a : Nat) (c : IMapCell) : Heap :=
  { h with icells := h.icells.set a c }

/-- Allocate a fresh index-map cell. -/
def allocI (h : Heap) (c : IMapCell) : Nat × Heap :=
  (h.icells.length, { h with icells := h.icells ++ [c] })

/-- Read a slice cell. -/
def readS (h : Heap) (a : Nat) : SliceCell := h.scells.getD a []

/-- Overwrite a slice cell. -/
def writeS (h : Heap) (a : Nat) (c : SliceCell) : Heap :=
  { h with scells := h.scells.set a c }

/-- Allocate a fresh slice cell. -/
def allocS (h : Heap) (c : SliceCell) : Nat × Heap :=
  (h.scells.length, { h with scells := h.scells ++ [c] })

/-- A model holds references to its field map and its index map. -/
structure HModel where
  fieldsAddr : Nat
  indexesAddr : Nat
  deriving Repr, DecidableEq

/-- `Model.Fields()`: `fields := Fields{}` makes a fresh map, the loop
copies every entry of the model's map into it, and the fresh reference
is returned. -/
def modelFields (m : HModel) (h : Heap) : Nat × Heap :=
  allocF h (readF h m.fieldsAddr)

/-- The copy loop of `Model.Indexes()`: per entry, `make`+`copy` a
fresh slice cell holding the entry's field names. -/
def copyIndexSlices (h : Heap) : IMapCell → IMapCell × Heap
  | [] => ([], h)
  | e :: rest =>
      let al := allocS h (readS h e.2)
      let tl := copyIndexSlices al.2 rest
      ((e.1, al.1) :: tl.1, tl.2)

/-- `Model.Indexes()`: copy every slice into fresh cells, then return a
fresh index-map cell referencing the copies. -/
def modelIndexes (m : HModel) (h : Heap) : Nat × Heap :=
  let en := copyIndexSlices h (readI h m.indexesAddr)
  allocI en.2 en.1

/-- The model's own field map as seen in a heap. -/
def fieldsView (h : Heap) (m : HModel) : FieldsCell := readF h m.fieldsAddr

/-- The model's own indexes: names with slice contents. -/
def indexesView (h : Heap) (m : HModel) : List (String × List String) :=
  (readI h m.indexesAddr).map (fun e => (e.1, readS h e.2))

/-- The references a model holds are live heap cells. -/
def Valid (h : Heap) (m : HModel) : Prop :=
  m.fieldsAddr < h.fcells.length
  ∧ m.indexesAddr < h.icells.length
  ∧ ∀ e ∈ readI h m.indexesAddr, e.2 < h.scells.length

/-- `getD` after writing another position. -/
theorem getD_set_ne {α : Type} (l : List α) (d : α) (i j : Nat) (c : α)
    (h : i ≠ j) : (l.set i c).getD j d = l.getD j d := by
  rw [List.getD_eq_getElem?_getD, List.getD_eq_getElem?_getD,
    List.getElem?_set_ne h]

/-- `getD` inside the prefix of an extension. -/
theorem getD_append_left {α : Type} (l l2 : List α) (d : α) (n : Nat)
    (h : n < l.length) : (l ++ l2).getD n d = l.getD n d := by
  rw [List.getD_eq_getElem?_getD, List.getD_eq_getElem?_getD,
    List.getElem?_append_left h]

/-- `getD` at the appended position. -/
theorem getD_concat_length {α : Type} (l : List α) (c d : α) :
    (l ++ [c]).getD l.length d = c := by
  rw [List.getD_eq_getElem?_getD, List.getElem?_concat_length]
  rfl

/-- The slice-copy loop leaves the other stores alone, only appends to
the slice store, returns only fresh slice references, and the copies
read back as the originals. -/
theorem copyIndexSlices_spec :
    ∀ (entries : IMapCell) (h : Heap),
      (∀ e ∈ entries, e.2 < h.scells.length) →
      (copyIndexSlices h entries).2.fcells = h.fcells
      ∧ (copyIndexSlices h entries).2.icells = h.icells
      ∧ (∃ ext, (copyIndexSlices h entries).2.scells = h.scells ++ ext)
      ∧ (∀ e ∈ (copyIndexSlices h entries).1, h.scells.length ≤ e.2)
      ∧ ((copyIndexSlices h entries).1.map
           (fun e => (e.1, readS (copyIndexSlices h entries).2 e.2))
          = entries.map (fun e => (e.1, readS h e.2))) := by
  intro entries
  induction entries with
  | nil =>
      intro h _
      refine ⟨rfl, rfl, ⟨[], by simp [copyIndexSlices]⟩, ?_, rfl⟩
      intro e he
      cases he
  | cons e rest ih =>
      intro h hv
      set h1 : Heap := { h with scells := h.scells ++ [readS h e.2] } with hh1
      have hstep : copyIndexSlices h (e :: rest)
          = ((e.1, h.scells.length) :: (copyIndexSlices h1 rest).1,
             (copyIndexSlices h1 rest).2) := rfl
      have hlen1 : h1.scells.length = h.scells.length + 1 := by
        simp [hh1]
      have hv1 : ∀ x ∈ rest, x.2 < h1.scells.length := by
        intro x hx
        have hxv := hv x (List.mem_cons_of_mem _ hx)
        omega
      obtain ⟨hf, hi, ⟨ext, hs⟩, hfresh, hview⟩ := ih h1 hv1
      simp only [hstep]
      refine ⟨by rw [hf], by rw [hi], ?_, ?_, ?_⟩
      · refine ⟨readS h e.2 :: ext, ?_⟩
        rw [hs, hh1]
        simp
      · intro x hx
        rcases List.mem_cons.mp hx with h1x | h1x
        · subst h1x
          simp
        · have := hfresh x h1x
          omega
      · simp only [List.map_cons]
        have hhead : readS (copyIndexSlices h1 rest).2 h.scells.length
            = readS h e.2 := by
          have hlt : h.scells.length < h1.scells.length := by omega
          rw [readS, hs, getD_append_left _ _ _ _ hlt, hh1]
          exact getD_concat_length _ _ _
        have htail : (copyIndexSlices h1 rest).1.map
              (fun x => (x.1, readS (copyIndexSlices h1 rest).2 x.2))
            = rest.map (fun x => (x.1, readS h x.2)) := by
          rw [hview]
          refine List.map_congr_left ?_
          intro x hx
          have hxv := hv x (List.mem_cons_of_mem _ hx)
          rw [readS, hh1]
          have := getD_append_left h.scells [readS h e.2] ([] : SliceCell) x.2 hxv
          simp only [this]
          rfl
        rw [hhead, htail]

/-- Claim C9: `Model.Fields()` and `Model.Indexes()` return fresh
copies — the returned references differ from the model's own, the
copies read back equal to the model's maps (with each index slice
copied into its own fresh cell), and overwriting the returned map cell,
the returned index-map cell, or any returned slice cell leaves the
model's own field map and index view unchanged. -/
theorem fields_indexes_fresh_copies (h : Heap) (m : HModel)
    (hv : Valid h m) :
    (readF (modelFields m h).2 (modelFields m h).1 = readF h m.fieldsAddr
      ∧ (modelFields m h).1 ≠ m.fieldsAddr
      ∧ ∀ c, fieldsView (writeF (modelFields m h).2 (modelFields m h).1 c) m
          = fieldsView h m)
    ∧ ((readI (modelIndexes m h).2 (modelIndexes m h).1).map
          (fun e => (e.1, readS (modelIndexes m h).2 e.2))
        = indexesView h m
      ∧ (modelIndexes m h).1 ≠ m.indexesAddr
      ∧ (∀ c, indexesView (writeI (modelIndexes m h).2 (modelIndexes m h).1 c) m
            = indexesView h m)
      ∧ ∀ e ∈ readI (modelIndexes m h).2 (modelIndexes m h).1, ∀ c,
          indexesView (writeS (modelIndexes m h).2 e.2 c) m
            = indexesView h m) := by
  obtain ⟨hfv, hiv, hsv⟩ := hv
  constructor
  · have hmf : modelFields m h
        = (h.fcells.length,
           { h with fcells := h.fcells ++ [readF h m.fieldsAddr] }) := rfl
    simp only [hmf]
    refine ⟨?_, Nat.ne_of_gt hfv, ?_⟩
    · exact getD_concat_length _ _ _
    · intro c
      show ((h.fcells ++ [readF h m.fieldsAddr]).set h.fcells.length c).getD
          m.fieldsAddr [] = h.fcells.getD m.fieldsAddr []
      rw [getD_set_ne _ _ _ _ _ (Nat.ne_of_gt hfv)]
      exact getD_append_left _ _ _ _ hfv
  · obtain ⟨hf, hi, ⟨ext, hs⟩, hfresh, hview⟩ :=
      copyIndexSlices_spec (readI h m.indexesAddr) h hsv
    set en := copyIndexSlices h (readI h m.indexesAddr) with hen
    have hmi : modelIndexes m h
        = (en.2.icells.length,
           { en.2 with icells := en.2.icells ++ [en.1] }) := rfl
    have hridx : m.indexesAddr < en.2.icells.length := by
      rw [hi]
      exact hiv
    have hA : ∀ e ∈ readI h m.indexesAddr, readS en.2 e.2 = readS h e.2 := by
      intro e he
      show en.2.scells.getD e.2 [] = h.scells.getD e.2 []
      rw [hs]
      exact getD_append_left _ _ _ _ (hsv e he)
    have hr1 : readI { en.2 with icells := en.2.icells ++ [en.1] }
        en.2.icells.length = en.1 := getD_concat_length _ _ _
    have hr2 : readI { en.2 with icells := en.2.icells ++ [en.1] }
        m.indexesAddr = readI h m.indexesAddr := by
      show (en.2.icells ++ [en.1]).getD m.indexesAddr [] = _
      rw [getD_append_left _ _ _ _ hridx, hi]
      rfl
    simp only [hmi]
    refine ⟨?_, Nat.ne_of_gt hridx, ?_, ?_⟩
    · rw [hr1]
      exact hview
    · intro c
      show (readI (writeI { en.2 with icells := en.2.icells ++ [en.1] }
              en.2.icells.length c) m.indexesAddr).map
            (fun e => (e.1, readS en.2 e.2))
          = indexesView h m
      have hset : readI (writeI { en.2 with icells := en.2.icells ++ [en.1] }
            en.2.icells.length c) m.indexesAddr = readI h m.indexesAddr := by
        show ((en.2.icells ++ [en.1]).set en.2.icells.length c).getD
            m.indexesAddr [] = _
        rw [getD_set_ne _ _ _ _ _ (Nat.ne_of_gt hridx),
          getD_append_left _ _ _ _ hridx, hi]
        rfl
      rw [hset]
      exact List.map_congr_left (fun e he => by rw [hA e he])
    · intro e he c
      rw [hr1] at he
      have hefresh : h.scells.length ≤ e.2 := hfresh e he
      have hset2 : readI (writeS { en.2 with icells := en.2.icells ++ [en.1] }
            e.2 c) m.indexesAddr = readI h m.indexesAddr := hr2
      simp only [indexesView]
      rw [hset2]
      refine List.map_congr_left ?_
      intro x hx
      have hxv := hsv x hx
      have hne2 : e.2 ≠ x.2 := by omega
      have hrs : readS (writeS { en.2 with icells := en.2.icells ++ [en.1] }
            e.2 c) x.2 = readS h x.2 := by
        show (en.2.scells.set e.2 c).getD x.2 [] = h.scells.getD x.2 []
        rw [getD_set_ne _ _ _ _ _ hne2, hs]
        exact getD_append_left _ _ _ _ hxv
      rw [hrs]

/-- A concrete heap for the C9 witness: one field-map cell, one
index-map cell whose single entry references the single slice cell. -/
def h0 : Heap := ⟨[[("id", 0)]], [[("i1", 0)]], [["email"]]⟩

/-- The model living at the first cells of `h0`. -/
def m0 : HModel := ⟨0, 0⟩

/-- Witness for claim C9 at the concrete heap: the copies are fresh and
overwriting the returned map cell, index-map cell, or the returned
slice cell (address 1) leaves the model's views unchanged. -/
theorem fields_indexes_fresh_copies_witness :
    readF (modelFields m0 h0).2 (modelFields m0 h0).1 = readF h0 0
    ∧ (modelFields m0 h0).1 ≠ 0
    ∧ fieldsView (writeF (modelFields m0 h0).2 (modelFields m0 h0).1
        [("hacked", 9)]) m0 = fieldsView h0 m0
    ∧ indexesView (writeI (modelIndexes m0 h0).2 (modelIndexes m0 h0).1 []) m0
      = indexesView h0 m0
    ∧ indexesView (writeS (modelIndexes m0 h0).2 1 ["hacked"]) m0
      = indexesView h0 m0 := by
  have h := fields_indexes_fresh_copies h0 m0
    ⟨by decide, by decide, by decide⟩
  exact ⟨h.1.1, h.1.2.1, h.1.2.2 _, h.2.2.2.1 _,
    h.2.2.2.2 ("i1", 1) (by decide) _⟩

end HeapM

namespace QS

/-!
Embedding of `GenericQuerySet.Update` and `GenericQuerySet.Delete`:
the statement text and the argument list handed to `Exec`.  Values are
abstracted to `Int`.  A Go `[]interface{}` appended as a single element
stays one argument, so an argument is either one value or a whole value
slice.  The conditioner of this source revision is not among the source
files; it is abstracted to its `Predicate(driver, startIndex)` method,
and the registry lookup of the query set's database is abstracted to
the found driver string. -/

/-- One positional argument handed to `Exec`: a single value, or a
value slice passed as one argument. -/
inductive Arg where
  | v (x : Int)
  | slice (xs : List Int)
  deriving Repr, DecidableEq

/-- Value lookup in the values container. -/
def lookupV : List (String × Int) → String → Option Int
  | [], _ => none
  | e :: rest, n => if e.1 = n then some e.2 else lookupV rest n

/-- The query-set data `Update`/`Delete` read: the model's table, the
model's field names in iteration order, and the optional condition
abstracted to its `Predicate` method. -/
structure UQuerySet where
  table : String
  fieldNames : List String
  cond : Option (String → Nat → String × List Int)

/-- The SET-clause loop of `Update`: for every model field with a value
in the container, emit a `"name" = $index` column and the value, and
advance the 1-based placeholder index. -/
def setClause (values : List (String × Int)) (fieldNames : List String) :
    List String × List Int × Nat :=
  fieldNames.foldl
    (fun acc name =>
      match lookupV values name with
      | some val =>
          (acc.1 ++ ["\"" ++ name ++ "\" = $" ++ toString acc.2.2],
           acc.2.1 ++ [val], acc.2.2 + 1)
      | none => acc)
    ([], [], 1)

/-- `GenericQuerySet.Update`: build the SET clause, then compile the
condition starting at the first placeholder index after the SET values
and append the predicate values after the SET values. -/
def update (driver : String) (qs : UQuerySet)
    (values : List (String × Int)) : String × List Arg :=
  let acc := setClause values qs.fieldNames
  let stmt := "UPDATE \"" ++ qs.table ++ "\" SET "
    ++ String.intercalate ", " acc.1
  match qs.cond with
  | none => (stmt, acc.2.1.map Arg.v)
  | some pred =>
      let pr := pred driver acc.2.2
      (stmt ++ " WHERE " ++ pr.1, acc.2.1.map Arg.v ++ pr.2.map Arg.v)

/-- `GenericQuerySet.Delete`: compile the condition starting at index 1
and append the predicate's value slice to the argument list — the
source's `values = append(values, vals)` appends the whole slice as a
single element. -/
def deleteQS (driver : String) (qs : UQuerySet) : String × List Arg :=
  let stmt := "DELETE FROM " ++ qs.table
  let values : List Arg := []
  match qs.cond with
  | none => (stmt, values)
  | some pred =>
      let pr := pred driver 1
      (stmt ++ " WHERE " ++ pr.1, values ++ [Arg.slice pr.2])

/-- Claim C8: evaluation at a conditioned query set.  `Update` does
emit the SET values first, hands the predicate the next placeholder
index, and appends the predicate values one by one — but `Delete`
appends the predicate's value slice as a single argument (the spread is
missing in `values = append(values, vals)`), so its statement is
followed by one slice argument rather than the predicate's values. -/
theorem update_delete_arg_emission :
    update "postgres"
        { table := "users_user", fieldNames := ["active", "email"],
          cond := some (fun _ i => ("\"id\" >= $" ++ toString i, [100])) }
        [("active", 0)]
      = ("UPDATE \"users_user\" SET \"active\" = $1 WHERE \"id\" >= $2",
         [Arg.v 0, Arg.v 100])
    ∧ deleteQS "postgres"
        { table := "users_user", fieldNames := ["active", "email"],
          cond := some (fun _ i => ("\"id\" >= $" ++ toString i, [100])) }
      = ("DELETE FROM users_user WHERE \"id\" >= $1", [Arg.slice [100]])
    ∧ [Arg.slice [100]] ≠ [Arg.v 100] :=
  ⟨rfl, rfl, by decide⟩

end QS
